import Mathlib

/-!
Shallow embedding of the gorm-migrator reconciliation engine and migration
controller (`src/migrator.go`, packages `migrator` and `migration`).

Versions are modelled as `Int` (Go `int64`; no arithmetic near the overflow
boundary is relevant to the verified properties).  The History Store (an
external gorm-backed collaborator, not part of the repository source) is
modelled from the spec's store contract: a list of persisted records in
insertion order.  Fallible Go code — in particular the out-of-range slice
index reachable inside `mergeMigrations` — is embedded with `Option`:
`none` models a runtime panic.
-/

namespace GormMigrator

/-- `migration.Migration` (src, package `migration`): version, display name,
and the transient `Stored` flag.  The `Up`/`Down` procedure fields are
modelled externally by success predicates (`uo`/`io` parameters below) plus
an execution log, since the embedding is pure. -/
structure Migration where
  Version : Int
  Name : String
  Stored : Bool
deriving DecidableEq

instance : Inhabited Migration := ⟨⟨0, "", false⟩⟩

/-- `migration.CompareMigrations`: `left.Version < right.Version`. -/
def CompareMigrations (left right : Migration) : Bool :=
  left.Version < right.Version

/-- `(*Migration).Less`: delegates to `CompareMigrations`. -/
def Migration.Less (mig migr : Migration) : Bool :=
  CompareMigrations mig migr

/-- A persisted row of the `migrations` table: gorm persists only the
`Version` and `Name` fields (`Up`/`Down`/`Stored` carry `gorm:"-"`). -/
structure PersistedRecord where
  Version : Int
  Name : String
deriving DecidableEq

/-- What `db.Create` persists from a `Migration` value. -/
def toRec (m : Migration) : PersistedRecord :=
  ⟨m.Version, m.Name⟩

/-- Loading a record back and immediately marking it stored, as the
`for i := range history { history[i].Stored = true }` loops in `Up`/`Reset`
do right after `Find`. -/
def loadStored (r : PersistedRecord) : Migration :=
  ⟨r.Version, r.Name, true⟩

/-- A registry descriptor as it reappears in a loaded history slice after
its record was persisted and read back: same version and name, `Stored`
set.  `markStored = loadStored ∘ toRec`. -/
def markStored (m : Migration) : Migration :=
  ⟨m.Version, m.Name, true⟩

/-- The `max` bound computed at the top of `mergeMigrations`: Go zero value
`0` when the registry is empty; otherwise `last registry version + 1` for an
unset (`-1`) target and `target + 1` otherwise. -/
def mergeMax (actual : List Migration) (target : Int) : Int :=
  if actual.length > 0 then
    if target = -1 then (actual.getD (actual.length - 1) default).Version + 1
    else target + 1
  else 0

/-- The cursor loop of `mergeMigrations` (src/migrator.go:305-327) including
both trailing drain loops.  The comparison in the second branch reads
`applied[j]` — the registry cursor used against the applied slice, exactly as
the Go source does; when `j` is out of range for `applied` the Go program
panics, which is modelled by `none`. -/
def mergeLoop (applied actual : List Migration) (mx : Int) (i j : Nat)
    (acc : List Migration) : Option (List Migration) :=
  if h : i < applied.length ∧ j < actual.length ∧
      (actual.length = 0 ∨ (actual.getD j default).Version < mx) then
    if (applied.getD i default).Less (actual.getD j default) then
      mergeLoop applied actual mx (i + 1) j (acc ++ [applied.getD i default])
    else if hj : j < applied.length then
      if (actual.getD j default).Less (applied.getD j default) then
        mergeLoop applied actual mx i (j + 1) (acc ++ [actual.getD j default])
      else
        mergeLoop applied actual mx (i + 1) (j + 1) (acc ++ [applied.getD i default])
    else
      none
  else
    some (acc ++ applied.drop i ++
      (actual.drop j).takeWhile (fun mg => mg.Version < mx))
termination_by (applied.length - i) + (actual.length - j)
decreasing_by
  · omega
  · omega
  · omega

/-- `(*Migrator).mergeMigrations` (src/migrator.go:289-330). -/
def mergeMigrations (applied actual : List Migration) (target : Int) :
    Option (List Migration) :=
  mergeLoop applied actual (mergeMax actual target) 0 0 []

/-- The cursor loop of `correlateMigrations` (src/migrator.go:342-360)
together with the trailing missing-migration check.  The `Bool` component
models `err`: `true` stands for `ErrorSomeMigrationsAreAbsent`. -/
def correlateLoop (applied actual : List Migration) (i j : Nat)
    (acc : List Migration) : List Migration × Bool :=
  if h : i < applied.length ∧ j < actual.length then
    if (applied.getD i default).Less (actual.getD j default) then
      (acc ++ [applied.getD i default], true)
    else if (actual.getD j default).Less (applied.getD i default) then
      correlateLoop applied actual i (j + 1) acc
    else
      correlateLoop applied actual (i + 1) (j + 1) (acc ++ [actual.getD j default])
  else if i < applied.length then
    (acc ++ [applied.getD i default], true)
  else
    (acc, false)
termination_by (applied.length - i) + (actual.length - j)
decreasing_by
  · omega
  · omega

/-- `(*Migrator).correlateMigrations` (src/migrator.go:335-363). -/
def correlateMigrations (applied actual : List Migration) :
    List Migration × Bool :=
  correlateLoop applied actual 0 0 []

/-- Structural restatement of the correlate walk (both cursors only ever
read the heads of their remaining suffixes); proved equal to
`correlateMigrations` in `correlateLoop_eq_Rec` below and used for the
inductive proofs. -/
def correlateRec : List Migration → List Migration → List Migration × Bool
  | [], _ => ([], false)
  | a :: _, [] => ([a], true)
  | a :: as, b :: bs =>
    if a.Less b then ([a], true)
    else if b.Less a then correlateRec (a :: as) bs
    else
      let r := correlateRec as bs
      (b :: r.1, r.2)

/-- Possible controller errors relevant to the embedded operations. -/
inductive MErr where
  /-- A migration's forward procedure returned an error. -/
  | procFailed
  /-- `db.Create` of a freshly applied record failed. -/
  | insertFailed
  /-- `db.Last` on an empty store (gorm `ErrRecordNotFound`). -/
  | recordNotFound
  /-- `ErrorTargetVersionNotFound` from `SetVersion`. -/
  | targetNotFound
deriving DecidableEq

/-- Result of a controller operation: the returned `(oldVersion, newVersion,
err)` triple plus the two effects the claims are about — the History Store
contents after the call and the versions whose forward procedure ran. -/
structure OpResult where
  oldVersion : Int
  newVersion : Int
  store : List PersistedRecord
  executed : List Int
  err : Option MErr
deriving DecidableEq

/-- Modelled from the spec: History Store contract §6,
`findAllOrderedByVersionAsc` — the store (gorm) is an external collaborator,
so the ordered read is modelled as sorting the insertion-ordered record list
by version. -/
def findAllByVersionAsc (store : List PersistedRecord) : List PersistedRecord :=
  List.insertionSort (fun a b => a.Version ≤ b.Version) store

/-- Modelled from the spec: History Store contract §6,
`findLastInsertedRecord` — insertion-order semantics: the most recently
inserted record, i.e. the last element of the insertion-ordered list. -/
def findLastInsertedRecord (store : List PersistedRecord) : Option PersistedRecord :=
  store.getLast?

/-- The `history` slice as `Up` sees it after `Find` + the mark-stored loop
(src/migrator.go:84-91). -/
def histOf (store : List PersistedRecord) : List Migration :=
  (findAllByVersionAsc store).map loadStored

/-- The initial `oldVersion`/`newVersion` of `Up`: last loaded history
version, or the Go zero value `0` for an empty store
(src/migrator.go:93-99). -/
def v0Of (store : List PersistedRecord) : Int :=
  ((histOf store).getLast?.map (·.Version)).getD 0

/-- The application loop of `Up` (src/migrator.go:103-117).  `uo v` tells
whether the forward procedure of version `v` succeeds, `io v` whether the
subsequent record insert succeeds; `executed` logs every forward-procedure
invocation (successful or not). -/
def upLoop (uo io : Int → Bool) (ov : Int) :
    List Migration → List PersistedRecord → Int → List Int → OpResult
  | [], store, nv, ex => ⟨ov, nv, store, ex, none⟩
  | migr :: rest, store, nv, ex =>
    if migr.Stored then
      upLoop uo io ov rest store nv ex
    else if uo migr.Version then
      if io migr.Version then
        upLoop uo io ov rest (store ++ [toRec migr]) migr.Version
          (ex ++ [migr.Version])
      else
        ⟨ov, migr.Version, store, ex ++ [migr.Version], some .insertFailed⟩
    else
      ⟨ov, nv, store, ex ++ [migr.Version], some .procFailed⟩

/-- `(*Migrator).Up` (src/migrator.go:81-120).  `registry` is the sorted
migration list held by the `Migrator`; the store read itself is modelled as
always succeeding.  `none` models the runtime panic reachable inside
`mergeMigrations`. -/
def Up (registry : List Migration) (uo io : Int → Bool) (target : Int)
    (store : List PersistedRecord) : Option OpResult :=
  match mergeMigrations (histOf store) registry target with
  | none => none
  | some merged => some (upLoop uo io (v0Of store) merged store (v0Of store) [])

/-- `(*Migrator).Version` (src/migrator.go:213-225): `db.Last` per the
store contract's insertion-order read; on an empty store the underlying
read error surfaces and `(0, 0)` (Go zero values) is returned. -/
def VersionOp (store : List PersistedRecord) : Int × Int × Option MErr :=
  match findLastInsertedRecord store with
  | none => (0, 0, some .recordNotFound)
  | some r => (r.Version, r.Version, none)

/-- The registry scan of `SetVersion` (src/migrator.go:237-244): append
each descriptor to `migs`, stop (inclusively) at the first one whose version
equals the target; the `Bool` is `true` iff the target was found
(`index != -1`). -/
def svScan : List Migration → Int → List Migration × Bool
  | [], _ => ([], false)
  | m :: rest, target =>
    if m.Version = target then ([m], true)
    else
      let r := svScan rest target
      (m :: r.1, r.2)

/-- `(*Migrator).SetVersion` (src/migrator.go:228-266): read the current
version (reporting only), scan the registry for the target, then delete all
records and bulk-insert the scanned prefix; no migration procedure is ever
invoked (the Go body contains no `Up`/`Down` call), hence `executed = []`. -/
def SetVersion (registry : List Migration) (target : Int)
    (store : List PersistedRecord) : OpResult :=
  let v := VersionOp store
  match v.2.2 with
  | some e => ⟨v.1, 0, store, [], some e⟩
  | none =>
    let s := svScan registry target
    if s.2 then
      let store2 : List PersistedRecord := ([] : List PersistedRecord) ++ s.1.map toRec
      ⟨v.1, ((s.1.getLast?.map (·.Version)).getD 0), store2, [], none⟩
    else
      ⟨v.1, 0, store, [], some .targetNotFound⟩

/-! ### Helper lemmas -/

/-- Boolean `Less` unfolds to version comparison. -/
@[simp] theorem Less_iff (a b : Migration) :
    (a.Less b = true) ↔ a.Version < b.Version := by
  simp [Migration.Less, CompareMigrations]

/-- The index-cursor correlate loop computes the structural walk on the
remaining suffixes, prefixed by the accumulator. -/
theorem correlateLoop_eq_Rec (applied actual : List Migration) (i j : Nat)
    (acc : List Migration) :
    correlateLoop applied actual i j acc =
      (acc ++ (correlateRec (applied.drop i) (actual.drop j)).1,
       (correlateRec (applied.drop i) (actual.drop j)).2) := by
  induction i, j, acc using correlateLoop.induct applied actual with
  | case1 i j acc h h1 =>
    obtain ⟨hi, hj⟩ := h
    rw [correlateLoop.eq_def, dif_pos ⟨hi, hj⟩, if_pos h1]
    rw [List.getD_eq_getElem _ _ hi, List.getD_eq_getElem _ _ hj] at h1
    rw [List.getD_eq_getElem _ _ hi]
    rw [List.drop_eq_getElem_cons hi, List.drop_eq_getElem_cons hj]
    rw [correlateRec, if_pos h1]
  | case2 i j acc h h1 h2 ih =>
    obtain ⟨hi, hj⟩ := h
    rw [correlateLoop.eq_def, dif_pos ⟨hi, hj⟩, if_neg h1, if_pos h2, ih]
    rw [List.getD_eq_getElem _ _ hi, List.getD_eq_getElem _ _ hj] at h1 h2
    rw [List.drop_eq_getElem_cons hi, List.drop_eq_getElem_cons hj]
    rw [correlateRec, if_neg h1, if_pos h2]
  | case3 i j acc h h1 h2 ih =>
    obtain ⟨hi, hj⟩ := h
    rw [correlateLoop.eq_def, dif_pos ⟨hi, hj⟩, if_neg h1, if_neg h2, ih]
    rw [List.getD_eq_getElem _ _ hi, List.getD_eq_getElem _ _ hj] at h1 h2
    rw [List.getD_eq_getElem _ _ hj]
    rw [List.drop_eq_getElem_cons hi, List.drop_eq_getElem_cons hj]
    rw [correlateRec, if_neg h1, if_neg h2]
    simp [List.append_assoc]
  | case4 i j acc h h1 =>
    have hj : actual.length ≤ j := by omega
    rw [correlateLoop.eq_def, dif_neg h, if_pos h1]
    rw [List.getD_eq_getElem _ _ h1]
    rw [List.drop_eq_nil_of_le hj, List.drop_eq_getElem_cons h1]
    rw [correlateRec]
  | case5 i j acc h h1 =>
    have hi : applied.length ≤ i := by omega
    rw [correlateLoop.eq_def, dif_neg h, if_neg h1]
    rw [List.drop_eq_nil_of_le hi]
    rw [correlateRec]
    simp

/-- When every applied version has a registry match, the structural correlate
walk succeeds and returns the registry descriptors filtered to the applied
versions. -/
theorem correlateRec_all_matched :
    ∀ (R A : List Migration),
    A.Pairwise (fun x y => x.Version < y.Version) →
    R.Pairwise (fun x y => x.Version < y.Version) →
    (∀ a ∈ A, a.Version ∈ R.map (fun m => m.Version)) →
    correlateRec A R =
      (R.filter (fun r => decide (r.Version ∈ A.map (fun m => m.Version))), false) := by
  intro R
  induction R with
  | nil =>
    intro A hA hR h
    cases A with
    | nil => rw [correlateRec]; simp
    | cons a as => exact absurd (h a (by simp)) (by simp)
  | cons b bs ih =>
    intro A hA hR h
    cases A with
    | nil =>
      rw [correlateRec]
      simp
    | cons a as =>
      have hbbs : ∀ x ∈ bs, b.Version < x.Version := fun x hx =>
        (List.pairwise_cons.mp hR).1 x hx
      have haas : ∀ x ∈ as, a.Version < x.Version := fun x hx =>
        (List.pairwise_cons.mp hA).1 x hx
      rcases lt_trichotomy a.Version b.Version with hlt | heq | hgt
      · exfalso
        have hm := h a (by simp)
        rw [List.map_cons, List.mem_cons] at hm
        rcases hm with h0 | h0
        · omega
        · rw [List.mem_map] at h0
          obtain ⟨x, hxmem, hxv⟩ := h0
          have := hbbs x hxmem
          omega
      · rw [correlateRec, if_neg (by simp; omega), if_neg (by simp; omega)]
        have has : ∀ x ∈ as, x.Version ∈ bs.map (fun m => m.Version) := by
          intro x hx
          have hm := h x (by simp [hx])
          rw [List.map_cons, List.mem_cons] at hm
          rcases hm with h0 | h0
          · have := haas x hx; omega
          · exact h0
        rw [ih as (List.pairwise_cons.mp hA).2 (List.pairwise_cons.mp hR).2 has]
        have hb : decide (b.Version ∈ (a :: as).map (fun m => m.Version)) = true := by
          simp; omega
        have hcongr : bs.filter (fun r => decide (r.Version ∈ (a :: as).map (fun m => m.Version))) =
            bs.filter (fun r => decide (r.Version ∈ as.map (fun m => m.Version))) := by
          apply List.filter_congr
          intro x hx
          have := hbbs x hx
          simp only [List.map_cons, List.mem_cons, decide_eq_decide]
          constructor
          · rintro (h0 | h0)
            · omega
            · exact h0
          · intro h0; exact Or.inr h0
        simp only [List.filter_cons, hb, if_true]
        rw [hcongr]
      · rw [correlateRec, if_neg (by simp; omega), if_pos (by simp; omega)]
        have hA' : ∀ x ∈ a :: as, x.Version ∈ bs.map (fun m => m.Version) := by
          intro x hx
          have hm := h x hx
          rw [List.map_cons, List.mem_cons] at hm
          rcases hm with h0 | h0
          · exfalso
            rcases List.mem_cons.mp hx with rfl | hx'
            · omega
            · have := haas x hx'; omega
          · exact h0
        rw [ih (a :: as) hA (List.pairwise_cons.mp hR).2 hA']
        have hb : decide (b.Version ∈ (a :: as).map (fun m => m.Version)) = false := by
          simp only [List.map_cons, List.mem_cons, decide_eq_false_iff_not]
          rintro (h0 | h0)
          · omega
          · rw [List.mem_map] at h0
            obtain ⟨x, hxmem, hxv⟩ := h0
            have := haas x hxmem
            omega
        simp only [List.filter_cons, hb]
        simp

/-- If the correlate walk reports success, every applied version had a
registry match (no sortedness needed). -/
theorem correlateRec_ok_subset :
    ∀ (R A : List Migration),
    (correlateRec A R).2 = false →
    ∀ a ∈ A, a.Version ∈ R.map (fun m => m.Version) := by
  intro R
  induction R with
  | nil =>
    intro A h a ha
    cases A with
    | nil => cases ha
    | cons x xs => rw [correlateRec] at h; cases h
  | cons b bs ih =>
    intro A h a ha
    cases A with
    | nil => cases ha
    | cons x xs =>
      rw [correlateRec] at h
      by_cases h1 : x.Less b = true
      · rw [if_pos h1] at h; cases h
      · rw [if_neg h1] at h
        by_cases h2 : b.Less x = true
        · rw [if_pos h2] at h
          have := ih (x :: xs) h a ha
          simp only [List.map_cons, List.mem_cons]
          exact Or.inr this
        · rw [if_neg h2] at h
          simp only at h
          rcases List.mem_cons.mp ha with rfl | ha'
          · simp only [Less_iff, not_lt] at h1 h2
            have : a.Version = b.Version := le_antisymm h2 h1
            simp [this]
          · have := ih xs h a ha'
            simp only [List.map_cons, List.mem_cons]
            exact Or.inr this

/-- If the applied sequence is `A1 ++ a :: A2` where every `A1` version has a
registry match and `a`'s version has none, the structural correlate walk
fails and returns exactly the correlated `A1` prefix followed by the missing
entry `a`. -/
theorem correlateRec_first_missing :
    ∀ (R A1 : List Migration) (a : Migration) (A2 : List Migration),
    (A1 ++ a :: A2).Pairwise (fun x y => x.Version < y.Version) →
    R.Pairwise (fun x y => x.Version < y.Version) →
    (∀ x ∈ A1, x.Version ∈ R.map (fun m => m.Version)) →
    a.Version ∉ R.map (fun m => m.Version) →
    correlateRec (A1 ++ a :: A2) R =
      (R.filter (fun r => decide (r.Version ∈ A1.map (fun m => m.Version))) ++ [a],
       true) := by
  intro R
  induction R with
  | nil =>
    intro A1 a A2 hA hR h1 h2
    cases A1 with
    | nil => rw [List.nil_append, correlateRec]; simp
    | cons x xs => exact absurd (h1 x (by simp)) (by simp)
  | cons b bs ih =>
    intro A1 a A2 hA hR h1 h2
    have hbbs : ∀ x ∈ bs, b.Version < x.Version := fun x hx =>
      (List.pairwise_cons.mp hR).1 x hx
    cases A1 with
    | nil =>
      rw [List.nil_append] at hA ⊢
      have haA2 : ∀ x ∈ A2, a.Version < x.Version := fun x hx =>
        (List.pairwise_cons.mp hA).1 x hx
      rw [List.map_cons, List.mem_cons] at h2
      push_neg at h2
      rcases lt_trichotomy a.Version b.Version with hlt | heq | hgt
      · rw [correlateRec, if_pos (by simp; omega)]
        have : ∀ r ∈ b :: bs, decide (r.Version ∈ ([] : List Migration).map (fun m => m.Version)) = false := by
          intro r _; simp
        simp
      · exact absurd heq h2.1
      · rw [correlateRec, if_neg (by simp; omega), if_pos (by simp; omega)]
        have := ih [] a A2 hA (List.pairwise_cons.mp hR).2 (by intro x hx; cases hx) h2.2
        rw [List.nil_append] at this
        rw [this]
        simp
    | cons x xs =>
      have hA0 : (x :: (xs ++ a :: A2)).Pairwise (fun x y => x.Version < y.Version) := hA
      have hxrest : ∀ y ∈ xs ++ a :: A2, x.Version < y.Version := fun y hy =>
        (List.pairwise_cons.mp hA0).1 y hy
      have hxa : x.Version < a.Version := hxrest a (by simp)
      rcases lt_trichotomy x.Version b.Version with hlt | heq | hgt
      · exfalso
        have hm := h1 x (by simp)
        rw [List.map_cons, List.mem_cons] at hm
        rcases hm with h0 | h0
        · omega
        · rw [List.mem_map] at h0
          obtain ⟨y, hymem, hyv⟩ := h0
          have := hbbs y hymem
          omega
      · rw [List.cons_append, correlateRec, if_neg (by simp; omega),
          if_neg (by simp; omega)]
        have hxs : ∀ y ∈ xs, y.Version ∈ bs.map (fun m => m.Version) := by
          intro y hy
          have hm := h1 y (by simp [hy])
          rw [List.map_cons, List.mem_cons] at hm
          rcases hm with h0 | h0
          · have := hxrest y (by simp [hy]); omega
          · exact h0
        have h2' : a.Version ∉ bs.map (fun m => m.Version) := by
          intro hmem
          exact h2 (by simp [hmem])
        have hA' : (xs ++ a :: A2).Pairwise (fun x y => x.Version < y.Version) :=
          (List.pairwise_cons.mp hA0).2
        rw [ih xs a A2 hA' (List.pairwise_cons.mp hR).2 hxs h2']
        have hb : decide (b.Version ∈ (x :: xs).map (fun m => m.Version)) = true := by
          simp; omega
        have hcongr : bs.filter (fun r => decide (r.Version ∈ (x :: xs).map (fun m => m.Version))) =
            bs.filter (fun r => decide (r.Version ∈ xs.map (fun m => m.Version))) := by
          apply List.filter_congr
          intro y hy
          have := hbbs y hy
          simp only [List.map_cons, List.mem_cons, decide_eq_decide]
          constructor
          · rintro (h0 | h0)
            · omega
            · exact h0
          · intro h0; exact Or.inr h0
        simp only [List.filter_cons, hb, if_true]
        rw [hcongr]
        simp
      · rw [List.cons_append, correlateRec, if_neg (by simp; omega),
          if_pos (by simp; omega)]
        have hxs : ∀ y ∈ x :: xs, y.Version ∈ bs.map (fun m => m.Version) := by
          intro y hy
          have hm := h1 y hy
          rw [List.map_cons, List.mem_cons] at hm
          rcases hm with h0 | h0
          · exfalso
            rcases List.mem_cons.mp hy with rfl | hy'
            · omega
            · have := hxrest y (by simp [hy']); omega
          · exact h0
        have h2' : a.Version ∉ bs.map (fun m => m.Version) := by
          intro hmem
          exact h2 (by simp [hmem])
        have hstep := ih (x :: xs) a A2 hA (List.pairwise_cons.mp hR).2 hxs h2'
        rw [List.cons_append] at hstep
        rw [hstep]
        have hb : decide (b.Version ∈ (x :: xs).map (fun m => m.Version)) = false := by
          simp only [List.map_cons, List.mem_cons, decide_eq_false_iff_not]
          rintro (h0 | h0)
          · omega
          · rw [List.mem_map] at h0
            obtain ⟨y, hymem, hyv⟩ := h0
            have := hxrest y (by simp [hymem])
            omega
        simp only [List.filter_cons, hb]
        simp

/-- Whatever the merge loop returns extends the accumulator followed by the
rest of the applied slice, in order: the applied sequence is always a
sublist of a successfully returned merge. -/
theorem mergeLoop_sublist (applied actual : List Migration) (mx : Int)
    (i j : Nat) (acc : List Migration) :
    ∀ res, mergeLoop applied actual mx i j acc = some res →
    (acc ++ applied.drop i).Sublist res := by
  induction i, j, acc using mergeLoop.induct applied actual mx with
  | case1 i j acc h h1 ih =>
    intro res hres
    rw [mergeLoop.eq_def, dif_pos h, if_pos h1] at hres
    have hs := ih res hres
    rw [List.getD_eq_getElem _ _ h.1] at hs
    rw [List.drop_eq_getElem_cons h.1]
    simpa [List.append_assoc] using hs
  | case2 i j acc h h1 hj h2 ih =>
    intro res hres
    rw [mergeLoop.eq_def, dif_pos h, if_neg h1, dif_pos hj, if_pos h2] at hres
    have hs := ih res hres
    simp only [List.append_assoc, List.singleton_append] at hs
    exact ((List.sublist_cons_self _ _).append_left acc).trans hs
  | case3 i j acc h h1 hj h2 ih =>
    intro res hres
    rw [mergeLoop.eq_def, dif_pos h, if_neg h1, dif_pos hj, if_neg h2] at hres
    have hs := ih res hres
    rw [List.getD_eq_getElem _ _ h.1] at hs
    rw [List.drop_eq_getElem_cons h.1]
    simpa [List.append_assoc] using hs
  | case4 i j acc h h1 hj =>
    intro res hres
    rw [mergeLoop.eq_def, dif_pos h, if_neg h1, dif_neg hj] at hres
    cases hres
  | case5 i j acc h =>
    intro res hres
    rw [mergeLoop.eq_def, dif_neg h] at hres
    obtain rfl := Option.some.inj hres
    exact List.sublist_append_left _ _

/-- Every element of a successfully returned merge comes either from the
applied slice or from the registry slice with version strictly below the
bound. -/
theorem mergeLoop_provenance (applied actual : List Migration) (mx : Int)
    (i j : Nat) (acc : List Migration) :
    ∀ res, mergeLoop applied actual mx i j acc = some res →
    (∀ x ∈ acc, x ∈ applied ∨ (x ∈ actual ∧ x.Version < mx)) →
    ∀ x ∈ res, x ∈ applied ∨ (x ∈ actual ∧ x.Version < mx) := by
  induction i, j, acc using mergeLoop.induct applied actual mx with
  | case1 i j acc h h1 ih =>
    intro res hres hacc
    rw [mergeLoop.eq_def, dif_pos h, if_pos h1] at hres
    refine ih res hres ?_
    intro x hx
    rcases List.mem_append.mp hx with hx' | hx'
    · exact hacc x hx'
    · rcases List.mem_singleton.mp hx' with rfl
      rw [List.getD_eq_getElem _ _ h.1]
      exact Or.inl (List.getElem_mem h.1)
  | case2 i j acc h h1 hj h2 ih =>
    intro res hres hacc
    rw [mergeLoop.eq_def, dif_pos h, if_neg h1, dif_pos hj, if_pos h2] at hres
    refine ih res hres ?_
    intro x hx
    rcases List.mem_append.mp hx with hx' | hx'
    · exact hacc x hx'
    · rcases List.mem_singleton.mp hx' with rfl
      refine Or.inr ⟨?_, ?_⟩
      · rw [List.getD_eq_getElem _ _ h.2.1]
        exact List.getElem_mem h.2.1
      · rcases h.2.2 with h0 | h0
        · omega
        · exact h0
  | case3 i j acc h h1 hj h2 ih =>
    intro res hres hacc
    rw [mergeLoop.eq_def, dif_pos h, if_neg h1, dif_pos hj, if_neg h2] at hres
    refine ih res hres ?_
    intro x hx
    rcases List.mem_append.mp hx with hx' | hx'
    · exact hacc x hx'
    · rcases List.mem_singleton.mp hx' with rfl
      rw [List.getD_eq_getElem _ _ h.1]
      exact Or.inl (List.getElem_mem h.1)
  | case4 i j acc h h1 hj =>
    intro res hres hacc
    rw [mergeLoop.eq_def, dif_pos h, if_neg h1, dif_neg hj] at hres
    cases hres
  | case5 i j acc h =>
    intro res hres hacc
    rw [mergeLoop.eq_def, dif_neg h] at hres
    obtain rfl := Option.some.inj hres
    intro x hx
    rcases List.mem_append.mp hx with hx' | hx'
    · rcases List.mem_append.mp hx' with hx'' | hx''
      · exact hacc x hx''
      · exact Or.inl ((List.drop_sublist i applied).mem hx'')
    · refine Or.inr ⟨?_, ?_⟩
      · exact (List.drop_sublist j actual).mem ((List.takeWhile_sublist _).mem hx')
      · have hp := List.mem_takeWhile_imp hx'
        simpa using hp

/-- When the applied slice is the stored-marked `k`-prefix of the registry,
the merge loop walks both cursors in lockstep and returns the applied prefix
followed by the under-bound remainder of the registry. -/
theorem mergeLoop_lockstep (registry : List Migration) (k : Nat) (mx : Int)
    (hasc : registry.Pairwise (fun x y => x.Version < y.Version)) :
    ∀ n i acc, ((registry.take k).map markStored).length - i ≤ n →
      i ≤ ((registry.take k).map markStored).length →
      mergeLoop ((registry.take k).map markStored) registry mx i i acc =
        some (acc ++ ((registry.take k).map markStored).drop i ++
          (registry.drop k).takeWhile (fun m => m.Version < mx)) := by
  have hAlen : ((registry.take k).map markStored).length = min k registry.length := by
    simp [List.length_take]
  have hexit : ∀ i : Nat, i = ((registry.take k).map markStored).length →
      (registry.drop i).takeWhile (fun m => decide (m.Version < mx)) =
        (registry.drop k).takeWhile (fun m => decide (m.Version < mx)) := by
    intro i hi
    rcases le_or_lt k registry.length with hk | hk
    · have : i = k := by omega
      rw [this]
    · have : i = registry.length := by omega
      rw [this, List.drop_eq_nil_of_le (le_refl _), List.drop_eq_nil_of_le (le_of_lt hk)]
  intro n
  induction n with
  | zero =>
    intro i acc hn hi
    have hiA : i = ((registry.take k).map markStored).length := by omega
    rw [mergeLoop.eq_def, dif_neg (by omega)]
    rw [hexit i hiA]
  | succ n ihn =>
    intro i acc hn hi
    by_cases hik : i < ((registry.take k).map markStored).length
    · have hikk : i < k := by omega
      have hikr : i < registry.length := by omega
      have hAi : ((registry.take k).map markStored).getD i default =
          markStored (registry.getD i default) := by
        rw [List.getD_eq_getElem _ _ hik, List.getD_eq_getElem _ _ hikr]
        rw [List.getElem_map, List.getElem_take]
      by_cases hp : (registry.getD i default).Version < mx
      · rw [mergeLoop.eq_def, dif_pos ⟨hik, hikr, Or.inr hp⟩]
        rw [if_neg (by rw [hAi]; simp [markStored])]
        rw [dif_pos hik]
        rw [if_neg (by rw [hAi]; simp [markStored])]
        rw [ihn (i + 1) (acc ++ [((registry.take k).map markStored).getD i default])
          (by omega) (by omega)]
        rw [List.getD_eq_getElem _ _ hik]
        rw [List.drop_eq_getElem_cons hik]
        simp [List.append_assoc]
      · rw [mergeLoop.eq_def, dif_neg (by
          intro hc
          rcases hc.2.2 with h0 | h0
          · omega
          · exact hp h0)]
        have h1 : (registry.drop i).takeWhile (fun m => decide (m.Version < mx)) = [] := by
          rw [List.drop_eq_getElem_cons hikr, List.takeWhile_cons_of_neg]
          rw [← List.getD_eq_getElem _ default hikr]
          simpa using hp
        have h2 : (registry.drop k).takeWhile (fun m => decide (m.Version < mx)) = [] := by
          rcases le_or_lt registry.length k with hk | hk
          · rw [List.drop_eq_nil_of_le hk, List.takeWhile_nil]
          · rw [List.drop_eq_getElem_cons hk, List.takeWhile_cons_of_neg]
            have hik2 : registry.getD i default = registry[i] :=
              List.getD_eq_getElem _ _ hikr
            rw [hik2] at hp
            have := List.pairwise_iff_getElem.mp hasc i k hikr hk hikk
            simp only [decide_eq_true_eq] at *
            omega
        rw [h1, h2]
    · have hiA : i = ((registry.take k).map markStored).length := by omega
      rw [mergeLoop.eq_def, dif_neg (by omega)]
      rw [hexit i hiA]

/-- `mergeMigrations` on a stored-marked registry prefix: the full applied
prefix followed by the not-yet-applied registry tail below the bound. -/
theorem mergeMigrations_lockstep (registry : List Migration) (k : Nat)
    (target : Int)
    (hasc : registry.Pairwise (fun x y => x.Version < y.Version)) :
    mergeMigrations ((registry.take k).map markStored) registry target =
      some ((registry.take k).map markStored ++
        (registry.drop k).takeWhile
          (fun m => m.Version < mergeMax registry target)) := by
  rw [mergeMigrations, mergeLoop_lockstep registry k _ hasc
    ((registry.take k).map markStored).length 0 [] (by omega) (by omega)]
  simp

/-- A run of the application loop over entries that are all marked stored
does nothing. -/
theorem upLoop_all_stored (uo io : Int → Bool) (ov : Int) :
    ∀ (l : List Migration) (store : List PersistedRecord) (nv : Int)
      (ex : List Int), (∀ m ∈ l, m.Stored = true) →
    upLoop uo io ov l store nv ex = ⟨ov, nv, store, ex, none⟩ := by
  intro l
  induction l with
  | nil => intro store nv ex h; rfl
  | cons a rest ih =>
    intro store nv ex h
    rw [upLoop, if_pos (h a (by simp))]
    exact ih store nv ex (fun m hm => h m (by simp [hm]))

/-- A prefix of entries whose pending members all succeed is consumed by
the application loop: it inserts their records, logs their executions and
advances `newVersion` to the last pending version. -/
theorem upLoop_run_ok (uo io : Int → Bool) (ov : Int) :
    ∀ (l rest : List Migration) (store : List PersistedRecord) (nv : Int)
      (ex : List Int),
    (∀ m ∈ l, m.Stored = false → uo m.Version = true ∧ io m.Version = true) →
    upLoop uo io ov (l ++ rest) store nv ex =
      upLoop uo io ov rest
        (store ++ (l.filter (fun m => !m.Stored)).map toRec)
        (((l.filter (fun m => !m.Stored)).map (fun m => m.Version)).getLastD nv)
        (ex ++ (l.filter (fun m => !m.Stored)).map (fun m => m.Version)) := by
  intro l
  induction l with
  | nil => intro rest store nv ex h; simp
  | cons a l ih =>
    intro rest store nv ex h
    by_cases hst : a.Stored
    · rw [List.cons_append, upLoop, if_pos hst]
      rw [ih rest store nv ex (fun m hm hs => h m (by simp [hm]) hs)]
      rw [List.filter_cons_of_neg (by simp [hst])]
    · obtain ⟨huo, hio⟩ := h a (by simp) (by simpa using hst)
      rw [List.cons_append, upLoop, if_neg hst, if_pos huo, if_pos hio]
      rw [ih rest (store ++ [toRec a]) a.Version (ex ++ [a.Version])
        (fun m hm hs => h m (by simp [hm]) hs)]
      rw [List.filter_cons_of_pos (by simpa using hst)]
      simp only [List.map_cons, List.getLastD_cons, List.append_assoc,
        List.singleton_append]

/-- If the application loop finishes without error, it has applied exactly
the pending entries: the final store appends their records, the execution
log lists their versions, and `newVersion` is the last pending version
(falling back to the incoming value when nothing was pending). -/
theorem upLoop_err_none (uo io : Int → Bool) (ov : Int) :
    ∀ (l : List Migration) (store : List PersistedRecord) (nv : Int)
      (ex : List Int),
    (upLoop uo io ov l store nv ex).err = none →
    upLoop uo io ov l store nv ex =
      ⟨ov, ((l.filter (fun m => !m.Stored)).map (fun m => m.Version)).getLastD nv,
       store ++ (l.filter (fun m => !m.Stored)).map toRec,
       ex ++ (l.filter (fun m => !m.Stored)).map (fun m => m.Version), none⟩ := by
  intro l
  induction l with
  | nil => intro store nv ex h; simp [upLoop]
  | cons a rest ih =>
    intro store nv ex h
    by_cases hst : a.Stored
    · rw [upLoop, if_pos hst] at h ⊢
      rw [List.filter_cons_of_neg (by simp [hst])]
      exact ih store nv ex h
    · rw [upLoop, if_neg hst] at h ⊢
      by_cases huo : uo a.Version
      · rw [if_pos huo] at h ⊢
        by_cases hio : io a.Version
        · rw [if_pos hio] at h ⊢
          rw [ih _ _ _ h]
          rw [List.filter_cons_of_pos (by simpa using hst)]
          simp only [List.map_cons, List.getLastD_cons, List.append_assoc,
            List.singleton_append]
        · rw [if_neg hio] at h
          cases h
      · rw [if_neg huo] at h
        cases h

/-- `takeWhile` is an initial segment: it equals `take` of its own length. -/
theorem takeWhile_eq_take_len (p : Migration → Bool) :
    ∀ t : List Migration, t.takeWhile p = t.take (t.takeWhile p).length := by
  intro t
  induction t with
  | nil => rfl
  | cons a t ih =>
    by_cases hp : p a
    · rw [List.takeWhile_cons_of_pos hp, List.length_cons, List.take_succ_cons, ← ih]
    · rw [List.takeWhile_cons_of_neg hp]
      rfl

/-- Dropping the `takeWhile` segment leaves the `dropWhile` remainder. -/
theorem drop_takeWhile_len (p : Migration → Bool) :
    ∀ t : List Migration, t.drop (t.takeWhile p).length = t.dropWhile p := by
  intro t
  induction t with
  | nil => rfl
  | cons a t ih =>
    by_cases hp : p a
    · rw [List.takeWhile_cons_of_pos hp, List.dropWhile_cons_of_pos hp,
        List.length_cons, List.drop_succ_cons, ih]
    · rw [List.takeWhile_cons_of_neg hp, List.dropWhile_cons_of_neg hp]
      rfl

/-- `takeWhile` right after `dropWhile` with the same predicate is empty. -/
theorem takeWhile_dropWhile_nil (p : Migration → Bool) :
    ∀ t : List Migration, (t.dropWhile p).takeWhile p = [] := by
  intro t
  induction t with
  | nil => rfl
  | cons a t ih =>
    by_cases hp : p a
    · rw [List.dropWhile_cons_of_pos hp]
      exact ih
    · rw [List.dropWhile_cons_of_neg hp, List.takeWhile_cons_of_neg hp]

/-- Loading a stored registry-prefix store yields the stored-marked registry
prefix: the store is already version-sorted, so the ordered read returns it
unchanged. -/
theorem histOf_take (registry : List Migration) (k : Nat)
    (hasc : registry.Pairwise (fun x y => x.Version < y.Version)) :
    histOf ((registry.take k).map toRec) = (registry.take k).map markStored := by
  have h1 : (registry.take k).Pairwise (fun x y => x.Version < y.Version) :=
    hasc.sublist (List.take_sublist k registry)
  have hsorted : ((registry.take k).map toRec).Pairwise
      (fun a b : PersistedRecord => a.Version ≤ b.Version) := by
    refine h1.map toRec ?_
    intro a b hab
    exact le_of_lt hab
  rw [histOf, findAllByVersionAsc, List.Sorted.insertionSort_eq hsorted,
    List.map_map]
  rfl

/-- Unfolding `Up` when the merge result is known. -/
theorem Up_eq_of_merge (registry : List Migration) (uo io : Int → Bool)
    (target : Int) (store : List PersistedRecord) (merged : List Migration)
    (h : mergeMigrations (histOf store) registry target = some merged) :
    Up registry uo io target store =
      some (upLoop uo io (v0Of store) merged store (v0Of store) []) := by
  rw [Up, h]

/-- Claim C6 (amended): `Up` is idempotent from any store that is a record
image of a registry prefix (the documented PersistedRecord invariant): starting from a store that is a record image of a
registry prefix, a successful `Up` leaves the store a (longer) registry
prefix, and an immediately repeated `Up` with the same target executes no
forward procedure, inserts no record, and reports the same `newVersion`. -/
theorem Up_idempotent_on_prefix_store (registry : List Migration) (uo io : Int → Bool)
    (target : Int) (k : Nat) (r : OpResult)
    (hasc : registry.Pairwise (fun x y => x.Version < y.Version))
    (hst : ∀ m ∈ registry, m.Stored = false)
    (h1 : Up registry uo io target ((registry.take k).map toRec) = some r)
    (h2 : r.err = none) :
    Up registry uo io target r.store =
      some ⟨r.newVersion, r.newVersion, r.store, [], none⟩ := by
  have hA : histOf ((registry.take k).map toRec) =
      (registry.take k).map markStored := histOf_take registry k hasc
  have hmerge := mergeMigrations_lockstep registry k target hasc
  rw [Up_eq_of_merge registry uo io target ((registry.take k).map toRec)
    ((registry.take k).map markStored ++
      (registry.drop k).takeWhile
        (fun m => m.Version < mergeMax registry target))
    (by rw [hA]; exact hmerge)] at h1
  have hr := Option.some.inj h1
  have herr : (upLoop uo io (v0Of ((registry.take k).map toRec))
      ((registry.take k).map markStored ++
        (registry.drop k).takeWhile
          (fun m => m.Version < mergeMax registry target))
      ((registry.take k).map toRec)
      (v0Of ((registry.take k).map toRec)) []).err = none := by
    rw [hr]; exact h2
  have hfilt : (((registry.take k).map markStored ++
      (registry.drop k).takeWhile
        (fun m => m.Version < mergeMax registry target)).filter
      (fun m => !m.Stored)) =
      (registry.drop k).takeWhile
        (fun m => m.Version < mergeMax registry target) := by
    rw [List.filter_append]
    rw [List.filter_eq_nil_iff.mpr (by
      intro m hm
      rcases List.mem_map.mp hm with ⟨x, _, rfl⟩
      simp [markStored])]
    rw [List.filter_eq_self.mpr (by
      intro m hm
      have hmem : m ∈ registry :=
        (List.drop_sublist k registry).mem ((List.takeWhile_sublist _).mem hm)
      simp [hst m hmem])]
    rw [List.nil_append]
  have hrun := upLoop_err_none uo io (v0Of ((registry.take k).map toRec))
    ((registry.take k).map markStored ++
      (registry.drop k).takeWhile
        (fun m => m.Version < mergeMax registry target))
    ((registry.take k).map toRec)
    (v0Of ((registry.take k).map toRec)) [] herr
  rw [hfilt] at hrun
  have hrs : r.store = (registry.take k).map toRec ++
      ((registry.drop k).takeWhile
        (fun m => m.Version < mergeMax registry target)).map toRec := by
    rw [← hr, hrun]
  have hrn : r.newVersion = (((registry.drop k).takeWhile
      (fun m => m.Version < mergeMax registry target)).map
        (fun m => m.Version)).getLastD (v0Of ((registry.take k).map toRec)) := by
    rw [← hr, hrun]
  have htake : registry.take (k + ((registry.drop k).takeWhile
      (fun m => m.Version < mergeMax registry target)).length) =
      registry.take k ++ (registry.drop k).takeWhile
        (fun m => m.Version < mergeMax registry target) := by
    rw [List.take_add]
    congr 1
    exact (takeWhile_eq_take_len _ (registry.drop k)).symm
  have hstore2 : r.store = (registry.take (k + ((registry.drop k).takeWhile
      (fun m => m.Version < mergeMax registry target)).length)).map toRec := by
    rw [hrs, htake, List.map_append]
  have hA2 : histOf r.store = (registry.take (k + ((registry.drop k).takeWhile
      (fun m => m.Version < mergeMax registry target)).length)).map markStored := by
    rw [hstore2]
    exact histOf_take registry _ hasc
  have htw2 : (registry.drop (k + ((registry.drop k).takeWhile
      (fun m => m.Version < mergeMax registry target)).length)).takeWhile
      (fun m => m.Version < mergeMax registry target) = [] := by
    rw [← List.drop_drop, drop_takeWhile_len]
    exact takeWhile_dropWhile_nil _ _
  have hmerge2 := mergeMigrations_lockstep registry
    (k + ((registry.drop k).takeWhile
      (fun m => m.Version < mergeMax registry target)).length) target hasc
  rw [htw2, List.append_nil] at hmerge2
  rw [Up_eq_of_merge registry uo io target r.store _ (by rw [hA2]; exact hmerge2)]
  rw [upLoop_all_stored uo io (v0Of r.store) _ r.store (v0Of r.store) [] (by
    intro m hm
    rcases List.mem_map.mp hm with ⟨x, _, rfl⟩
    rfl)]
  have hv0 : v0Of r.store = r.newVersion := by
    rw [hrn, v0Of, hA2]
    rcases eq_or_ne ((registry.drop k).takeWhile
        (fun m => m.Version < mergeMax registry target)) [] with htw0 | htw0
    · rw [htw0]
      simp only [List.length_nil, Nat.add_zero, List.map_nil, List.getLastD_nil]
      rw [v0Of, hA]
    · rw [htake, List.map_append,
        List.getLast?_append_of_ne_nil _ (by simp [htw0]),
        List.getLast?_map, List.getLastD_eq_getLast?, List.getLast?_map,
        List.getLast?_eq_getLast _ htw0]
      simp [markStored]
  rw [hv0]

/-- `Version` on a nonempty store returns the last inserted record's
version twice with no error. -/
theorem VersionOp_getLast (store : List PersistedRecord) (hs : store ≠ []) :
    VersionOp store =
      ((store.getLast hs).Version, (store.getLast hs).Version, none) := by
  rw [VersionOp, findLastInsertedRecord, List.getLast?_eq_getLast store hs]

/-- When the target version occurs in the registry, the `SetVersion` scan
reports it found and the collected prefix ends with a descriptor carrying
the target version. -/
theorem svScan_found :
    ∀ (registry : List Migration) (target : Int),
    target ∈ registry.map (fun m => m.Version) →
    (svScan registry target).2 = true ∧
    ∃ w, (svScan registry target).1.getLast? = some w ∧ w.Version = target := by
  intro registry
  induction registry with
  | nil => intro target h; cases h
  | cons m rest ih =>
    intro target h
    by_cases hm : m.Version = target
    · rw [svScan, if_pos hm]
      exact ⟨rfl, m, rfl, hm⟩
    · have h' : target ∈ rest.map (fun x => x.Version) := by
        rcases List.mem_cons.mp h with h0 | h0
        · exact absurd h0.symm hm
        · exact h0
      obtain ⟨h2, w, hw, hwv⟩ := ih target h'
      rw [svScan, if_neg hm]
      refine ⟨h2, w, ?_, hwv⟩
      rw [List.getLast?_cons, hw]
      rfl

/-- When the target version is absent from the registry, the `SetVersion`
scan reports it missing. -/
theorem svScan_not_found :
    ∀ (registry : List Migration) (target : Int),
    target ∉ registry.map (fun m => m.Version) →
    (svScan registry target).2 = false := by
  intro registry
  induction registry with
  | nil => intro target _; rfl
  | cons m rest ih =>
    intro target h
    have hm : ¬ m.Version = target := by
      intro hc
      exact h (by simp [hc])
    rw [svScan, if_neg hm]
    exact ih target (fun hc => h (by simp [hc]))

/-! ### Claim theorems -/

/-- Claim C1 (code bug): on the disjoint ascending inputs with applied
versions `[1, 2, 5]` (stored) and registry versions `[3, 4]` and an unset
target, `mergeMigrations` returns the version sequence `[1, 2, 5, 4]`:
not strictly ascending and missing registry version `3`, so the result is
not the union of the two version sets — the `applied[j]` comparison at
src/migrator.go:309 (instead of `applied[i]`) breaks the merge. -/
theorem merge_disjoint_union_violated :
    mergeMigrations
      [⟨1, "a", true⟩, ⟨2, "b", true⟩, ⟨5, "e", true⟩]
      [⟨3, "c", false⟩, ⟨4, "d", false⟩] (-1) =
      some [⟨1, "a", true⟩, ⟨2, "b", true⟩, ⟨5, "e", true⟩, ⟨4, "d", false⟩] ∧
    ([⟨1, "a", true⟩, ⟨2, "b", true⟩, ⟨5, "e", true⟩, ⟨4, "d", false⟩] :
        List Migration).map (fun m => m.Version) = [1, 2, 5, 4] ∧
    ¬ List.Pairwise (fun x y : Int => x < y) [1, 2, 5, 4] ∧
    (3 : Int) ∉ ([1, 2, 5, 4] : List Int) := by
  refine ⟨?_, by decide, by decide, by decide⟩
  simp [mergeMigrations, mergeLoop, mergeMax, Migration.Less, CompareMigrations]

/-- Claim C2 (code bug): the merge is not total.  With applied versions
`[3]` and registry versions `[1, 2]`, the registry cursor `j` reaches `1`
while `applied` has length `1`, so the comparison `applied[j]` at
src/migrator.go:309 indexes out of range and the Go program panics
(modelled by `none`). -/
theorem merge_out_of_range :
    mergeMigrations [⟨3, "c", true⟩]
      [⟨1, "a", false⟩, ⟨2, "b", false⟩] (-1) = none := by
  simp [mergeMigrations, mergeLoop, mergeMax, Migration.Less, CompareMigrations]

/-- Claim C3 counterexample: with applied versions `[5]`, registry versions
`[1, 2, 3, 4]` and target `3`, the merge panics (returns no sequence at
all), so it does not include every version of the applied sequence. -/
theorem merge_bound_claim_counterexample :
    ¬ ∃ res, mergeMigrations [⟨5, "e", true⟩]
        [⟨1, "a", false⟩, ⟨2, "b", false⟩, ⟨3, "c", false⟩, ⟨4, "d", false⟩]
        3 = some res ∧ (5 : Int) ∈ res.map (fun m => m.Version) := by
  rintro ⟨res, hres, -⟩
  have hnone : mergeMigrations [⟨5, "e", true⟩]
      [⟨1, "a", false⟩, ⟨2, "b", false⟩, ⟨3, "c", false⟩, ⟨4, "d", false⟩]
      3 = none := by
    simp [mergeMigrations, mergeLoop, mergeMax, Migration.Less,
      CompareMigrations]
  rw [hnone] at hres
  cases hres

/-- Claim C3 (amended): whenever `mergeMigrations` with a set target
returns a result (does not panic), the applied sequence is a sublist of the
result (every applied entry is included, never bound-limited) and every
element with version above the target comes from the applied sequence — a
registry-only version greater than the target is never included. -/
theorem merge_bound_and_applied_total (A R : List Migration) (t : Int)
    (res : List Migration) (ht : t ≠ -1)
    (h : mergeMigrations A R t = some res) :
    A.Sublist res ∧ ∀ m ∈ res, m.Version > t → m ∈ A := by
  rw [mergeMigrations] at h
  constructor
  · have hs := mergeLoop_sublist A R (mergeMax R t) 0 0 [] res h
    simpa using hs
  · intro m hm hv
    have hprov := mergeLoop_provenance A R (mergeMax R t) 0 0 [] res h
      (by intro x hx; cases hx) m hm
    rcases hprov with h0 | ⟨hmem, hlt⟩
    · exact h0
    · exfalso
      rw [mergeMax] at hlt
      by_cases hR : R.length > 0
      · rw [if_pos hR, if_neg ht] at hlt
        omega
      · have hnil : R = [] := List.length_eq_zero.mp (by omega)
        rw [hnil] at hmem
        cases hmem

/-- Witness for the amended C3: applied versions `[1, 2]` as the stored
registry prefix, registry `[1, 2, 3]`, target `2`: the merge returns the
applied entries only, which form a sublist and contain nothing above the
target that is not applied. -/
theorem merge_bound_and_applied_total_witness :
    ([⟨1, "-", true⟩, ⟨2, "a", true⟩] : List Migration).Sublist
      [⟨1, "-", true⟩, ⟨2, "a", true⟩] ∧
    ∀ m ∈ ([⟨1, "-", true⟩, ⟨2, "a", true⟩] : List Migration),
      m.Version > 2 → m ∈ ([⟨1, "-", true⟩, ⟨2, "a", true⟩] : List Migration) :=
  merge_bound_and_applied_total
    [⟨1, "-", true⟩, ⟨2, "a", true⟩]
    [⟨1, "-", false⟩, ⟨2, "a", false⟩, ⟨3, "b", false⟩] 2
    [⟨1, "-", true⟩, ⟨2, "a", true⟩] (by decide)
    (by simp [mergeMigrations, mergeLoop, mergeMax, Migration.Less,
      CompareMigrations])

/-- Claim C4: for ascending inputs, if every applied version occurs in the
registry then `correlateMigrations` succeeds and returns exactly the
registry descriptors whose versions occur in the applied sequence (in
registry order, hence ascending); and it succeeds only in that case. -/
theorem correlate_success_iff_matched (A R : List Migration)
    (hA : A.Pairwise (fun x y => x.Version < y.Version))
    (hR : R.Pairwise (fun x y => x.Version < y.Version)) :
    ((∀ a ∈ A, a.Version ∈ R.map (fun m => m.Version)) →
      correlateMigrations A R =
        (R.filter (fun r => decide (r.Version ∈ A.map (fun m => m.Version))),
         false) ∧
      (R.filter (fun r => decide (r.Version ∈ A.map (fun m => m.Version)))).Pairwise
        (fun x y => x.Version < y.Version)) ∧
    ((correlateMigrations A R).2 = false →
      ∀ a ∈ A, a.Version ∈ R.map (fun m => m.Version)) := by
  have hbridge := correlateLoop_eq_Rec A R 0 0 []
  rw [List.drop_zero, List.drop_zero] at hbridge
  constructor
  · intro h
    constructor
    · rw [correlateMigrations, hbridge, correlateRec_all_matched R A hA hR h]
      simp
    · exact hR.sublist (List.filter_sublist R)
  · intro h a ha
    rw [correlateMigrations, hbridge] at h
    simp only at h
    exact correlateRec_ok_subset R A h a ha

/-- Witness for C4: applied versions `[1, 3]`, registry versions
`[1, 2, 3]`. -/
theorem correlate_success_iff_matched_witness :
    ((∀ a ∈ ([⟨1, "-", true⟩, ⟨3, "b", true⟩] : List Migration),
        a.Version ∈ ([⟨1, "-", false⟩, ⟨2, "a", false⟩, ⟨3, "b", false⟩] :
          List Migration).map (fun m => m.Version)) →
      correlateMigrations [⟨1, "-", true⟩, ⟨3, "b", true⟩]
          [⟨1, "-", false⟩, ⟨2, "a", false⟩, ⟨3, "b", false⟩] =
        (([⟨1, "-", false⟩, ⟨2, "a", false⟩, ⟨3, "b", false⟩] :
            List Migration).filter
          (fun r => decide (r.Version ∈
            ([⟨1, "-", true⟩, ⟨3, "b", true⟩] : List Migration).map
              (fun m => m.Version))), false) ∧
      (([⟨1, "-", false⟩, ⟨2, "a", false⟩, ⟨3, "b", false⟩] :
          List Migration).filter
        (fun r => decide (r.Version ∈
          ([⟨1, "-", true⟩, ⟨3, "b", true⟩] : List Migration).map
            (fun m => m.Version)))).Pairwise
        (fun x y => x.Version < y.Version)) ∧
    ((correlateMigrations [⟨1, "-", true⟩, ⟨3, "b", true⟩]
        [⟨1, "-", false⟩, ⟨2, "a", false⟩, ⟨3, "b", false⟩]).2 = false →
      ∀ a ∈ ([⟨1, "-", true⟩, ⟨3, "b", true⟩] : List Migration),
        a.Version ∈ ([⟨1, "-", false⟩, ⟨2, "a", false⟩, ⟨3, "b", false⟩] :
          List Migration).map (fun m => m.Version)) :=
  correlate_success_iff_matched
    [⟨1, "-", true⟩, ⟨3, "b", true⟩]
    [⟨1, "-", false⟩, ⟨2, "a", false⟩, ⟨3, "b", false⟩]
    (by decide) (by decide)

/-- Claim C5: for ascending inputs, if the applied sequence contains a
first version `a` absent from the registry, `correlateMigrations` reports
failure and returns the correlated prefix of exact matches accumulated
before `a`, with the missing entry itself appended last. -/
theorem correlate_failure_keeps_matched (A1 : List Migration)
    (a : Migration) (A2 R : List Migration)
    (hA : (A1 ++ a :: A2).Pairwise (fun x y => x.Version < y.Version))
    (hR : R.Pairwise (fun x y => x.Version < y.Version))
    (h1 : ∀ x ∈ A1, x.Version ∈ R.map (fun m => m.Version))
    (h2 : a.Version ∉ R.map (fun m => m.Version)) :
    correlateMigrations (A1 ++ a :: A2) R =
      (R.filter (fun r => decide (r.Version ∈ A1.map (fun m => m.Version))) ++
        [a], true) := by
  have hbridge := correlateLoop_eq_Rec (A1 ++ a :: A2) R 0 0 []
  rw [List.drop_zero, List.drop_zero] at hbridge
  rw [correlateMigrations, hbridge,
    correlateRec_first_missing R A1 a A2 hA hR h1 h2]
  rfl

/-- Witness for C5: applied versions `[1, 4]` with `4` missing from the
registry `[1, 2]`: failure, correlated prefix `[1]`, missing entry last. -/
theorem correlate_failure_keeps_matched_witness :
    correlateMigrations [⟨1, "-", true⟩, ⟨4, "x", true⟩]
        [⟨1, "-", false⟩, ⟨2, "a", false⟩] =
      ([⟨1, "-", false⟩, ⟨4, "x", true⟩], true) := by
  have h := correlate_failure_keeps_matched [⟨1, "-", true⟩] ⟨4, "x", true⟩ []
    [⟨1, "-", false⟩, ⟨2, "a", false⟩] (by decide) (by decide) (by decide)
    (by decide)
  simpa using h

/-- Claim C6 counterexample: from the store with record versions
`[1, 2, 5]` and registry versions `[3, 4]`, an unset-target `Up` succeeds
with `newVersion = 4`, but repeating the identical call returns
`newVersion = 5`, executing nothing — `Up` is not idempotent in the
reported `newVersion` on stores that are not a registry prefix. -/
theorem Up_not_idempotent_counterexample :
    Up [⟨3, "c", false⟩, ⟨4, "d", false⟩] (fun _ => true) (fun _ => true) (-1)
        [⟨1, "a"⟩, ⟨2, "b"⟩, ⟨5, "e"⟩] =
      some ⟨5, 4, [⟨1, "a"⟩, ⟨2, "b"⟩, ⟨5, "e"⟩, ⟨4, "d"⟩], [4], none⟩ ∧
    Up [⟨3, "c", false⟩, ⟨4, "d", false⟩] (fun _ => true) (fun _ => true) (-1)
        [⟨1, "a"⟩, ⟨2, "b"⟩, ⟨5, "e"⟩, ⟨4, "d"⟩] =
      some ⟨5, 5, [⟨1, "a"⟩, ⟨2, "b"⟩, ⟨5, "e"⟩, ⟨4, "d"⟩], [], none⟩ ∧
    (4 : Int) ≠ 5 := by
  refine ⟨?_, ?_, by decide⟩ <;>
    simp [Up, histOf, findAllByVersionAsc, v0Of, mergeMigrations, mergeLoop,
      mergeMax, upLoop, loadStored, toRec, Migration.Less, CompareMigrations,
      List.insertionSort, List.orderedInsert]

/-- Witness for the amended C6: registry versions `[1, 2]`, store holding
the already-extended prefix `[1, 2]`: a repeated unset-target `Up` leaves
the store untouched, executes nothing and reports `newVersion = 2` again. -/
theorem Up_idempotent_on_prefix_store_witness :
    Up [⟨1, "-", false⟩, ⟨2, "a", false⟩] (fun _ => true) (fun _ => true) (-1)
        [⟨1, "-"⟩, ⟨2, "a"⟩] =
      some ⟨2, 2, [⟨1, "-"⟩, ⟨2, "a"⟩], [], none⟩ := by
  have h := Up_idempotent_on_prefix_store
    [⟨1, "-", false⟩, ⟨2, "a", false⟩] (fun _ => true) (fun _ => true) (-1) 1
    ⟨1, 2, [⟨1, "-"⟩, ⟨2, "a"⟩], [2], none⟩
    (by decide) (by decide)
    (by simp [Up, histOf, findAllByVersionAsc, v0Of, mergeMigrations,
      mergeLoop, mergeMax, upLoop, loadStored, toRec, Migration.Less,
      CompareMigrations, List.insertionSort, List.orderedInsert])
    rfl
  simpa using h

/-- Claim C7: when the forward procedure of the first pending entry `m`
fails, or its record insert fails, `Up` returns that error immediately:
entries after `m` are neither executed nor recorded, the records inserted
for the earlier pending entries stay (no rollback), and `newVersion` is the
version of the last successfully applied migration — `m.Version` itself
when only the insert failed, otherwise the last earlier pending version,
falling back to the pre-call version. -/
theorem Up_stops_at_first_failure (registry : List Migration)
    (uo io : Int → Bool) (target : Int) (store : List PersistedRecord)
    (pre : List Migration) (m : Migration) (post : List Migration)
    (hmerge : mergeMigrations (histOf store) registry target =
      some (pre ++ m :: post))
    (hpre : ∀ x ∈ pre, x.Stored = false →
      uo x.Version = true ∧ io x.Version = true)
    (hm : m.Stored = false)
    (hfail : uo m.Version = false ∨ io m.Version = false) :
    Up registry uo io target store = some
      ⟨v0Of store,
       if uo m.Version then m.Version
       else ((pre.filter (fun x => !x.Stored)).map
         (fun x => x.Version)).getLastD (v0Of store),
       store ++ (pre.filter (fun x => !x.Stored)).map toRec,
       (pre.filter (fun x => !x.Stored)).map (fun x => x.Version) ++
         [m.Version],
       some (if uo m.Version then MErr.insertFailed else MErr.procFailed)⟩ := by
  rw [Up_eq_of_merge registry uo io target store _ hmerge]
  rw [upLoop_run_ok uo io (v0Of store) pre (m :: post) store (v0Of store) []
    hpre]
  rw [upLoop, if_neg (by simp [hm])]
  by_cases huo : uo m.Version = true
  · have hio : io m.Version = false := by
      rcases hfail with h0 | h0
      · rw [huo] at h0; cases h0
      · exact h0
    rw [if_pos huo, if_neg (by simp [hio])]
    simp [huo]
  · have huo' : uo m.Version = false := by
      cases h0 : uo m.Version
      · rfl
      · exact absurd h0 huo
    rw [if_neg huo]
    simp [huo']

/-- Witness for C7: registry versions `[1, 2, 3]` with the forward
procedure of version `3` failing, store holding the sentinel record:
`Up(unset)` applies `2`, then fails at `3`, keeping `2`'s record, logging
both executions, and reporting `newVersion = 2`. -/
theorem Up_stops_at_first_failure_witness :
    Up [⟨1, "-", false⟩, ⟨2, "a", false⟩, ⟨3, "b", false⟩]
        (fun v => decide (v < 3)) (fun _ => true) (-1) [⟨1, "-"⟩] =
      some ⟨1, 2, [⟨1, "-"⟩, ⟨2, "a"⟩], [2, 3], some MErr.procFailed⟩ := by
  have h := Up_stops_at_first_failure
    [⟨1, "-", false⟩, ⟨2, "a", false⟩, ⟨3, "b", false⟩]
    (fun v => decide (v < 3)) (fun _ => true) (-1) [⟨1, "-"⟩]
    [⟨1, "-", true⟩, ⟨2, "a", false⟩] ⟨3, "b", false⟩ []
    (by simp [mergeMigrations, mergeLoop, mergeMax, histOf,
      findAllByVersionAsc, loadStored, toRec, Migration.Less,
      CompareMigrations, List.insertionSort, List.orderedInsert])
    (by decide) (by decide) (Or.inl (by decide))
  simpa [v0Of, histOf, findAllByVersionAsc, loadStored, toRec,
    List.insertionSort, List.orderedInsert] using h

/-- Claim C8 counterexample: with the registry containing version `1` and
an empty store, `SetVersion 1` fails with the store-read error (`db.Last`
on an empty table), so the subsequent `Version` does not return `1`. -/
theorem SetVersion_then_Version_counterexample :
    (1 : Int) ∈ ([⟨1, "-", false⟩] : List Migration).map
      (fun m => m.Version) ∧
    (SetVersion [⟨1, "-", false⟩] 1 []).err = some MErr.recordNotFound ∧
    VersionOp (SetVersion [⟨1, "-", false⟩] 1 []).store ≠
      ((1 : Int), (1 : Int), (none : Option MErr)) := by
  decide

/-- Claim C8 (amended): for a nonempty store and any target version present
in the registry, `SetVersion` succeeds, invokes no forward or backward
procedure, and a subsequent `Version` returns the target as both old and
new version. -/
theorem SetVersion_then_Version (registry : List Migration) (target : Int)
    (store : List PersistedRecord) (hs : store ≠ [])
    (hv : target ∈ registry.map (fun m => m.Version)) :
    (SetVersion registry target store).err = none ∧
    (SetVersion registry target store).executed = [] ∧
    VersionOp (SetVersion registry target store).store =
      (target, target, none) := by
  obtain ⟨hfound, w, hw, hwv⟩ := svScan_found registry target hv
  have hsv : SetVersion registry target store =
      ⟨(store.getLast hs).Version,
       (((svScan registry target).1.getLast?.map (fun m => m.Version)).getD 0),
       ([] : List PersistedRecord) ++ (svScan registry target).1.map toRec,
       [], none⟩ := by
    rw [SetVersion, VersionOp_getLast store hs]
    simp only [hfound, if_true]
  rw [hsv]
  refine ⟨rfl, rfl, ?_⟩
  have hstore : (([] : List PersistedRecord) ++
      (svScan registry target).1.map toRec) ≠ [] := by
    intro hc
    rw [List.nil_append] at hc
    rcases List.map_eq_nil_iff.mp hc with hnil
    rw [hnil] at hw
    cases hw
  rw [VersionOp_getLast _ hstore]
  have hlastq : (([] : List PersistedRecord) ++
      (svScan registry target).1.map toRec).getLast? = some (toRec w) := by
    rw [List.nil_append, List.getLast?_map, hw]
    rfl
  have hlast : (([] : List PersistedRecord) ++
      (svScan registry target).1.map toRec).getLast hstore = toRec w := by
    have h0 := List.getLast?_eq_getLast _ hstore
    rw [h0] at hlastq
    exact Option.some.inj hlastq
  rw [hlast]
  simp [toRec, hwv]

/-- Witness for the amended C8: registry versions `[1, 2]`, store holding
the sentinel record, target `2`. -/
theorem SetVersion_then_Version_witness :
    (SetVersion [⟨1, "-", false⟩, ⟨2, "a", false⟩] 2 [⟨1, "-"⟩]).err = none ∧
    (SetVersion [⟨1, "-", false⟩, ⟨2, "a", false⟩] 2 [⟨1, "-"⟩]).executed =
      [] ∧
    VersionOp (SetVersion [⟨1, "-", false⟩, ⟨2, "a", false⟩] 2
      [⟨1, "-"⟩]).store = (2, 2, none) :=
  SetVersion_then_Version [⟨1, "-", false⟩, ⟨2, "a", false⟩] 2 [⟨1, "-"⟩]
    (by decide) (by decide)

/-- Claim C9 counterexample: with an empty store (and the target absent
from the registry), `SetVersion` fails with the store-read error from its
initial `Version` call, not with the target-not-found error — though the
store is still left unchanged. -/
theorem SetVersion_unknown_target_counterexample :
    (5 : Int) ∉ ([] : List Migration).map (fun m => m.Version) ∧
    (SetVersion [] 5 []).err = some MErr.recordNotFound ∧
    (SetVersion [] 5 []).err ≠ some MErr.targetNotFound ∧
    (SetVersion [] 5 []).store = [] := by
  decide

/-- Claim C9 (amended): for a nonempty store, when the target version is
not present in the registry, `SetVersion` returns the target-not-found
error and leaves the store completely unchanged — the rejection happens
before any delete or insert. -/
theorem SetVersion_rejects_unknown_target (registry : List Migration)
    (target : Int) (store : List PersistedRecord) (hs : store ≠ [])
    (hv : target ∉ registry.map (fun m => m.Version)) :
    SetVersion registry target store =
      ⟨(store.getLast hs).Version, 0, store, [],
       some MErr.targetNotFound⟩ := by
  have hnf := svScan_not_found registry target hv
  rw [SetVersion, VersionOp_getLast store hs]
  simp only [hnf, Bool.false_eq_true, if_false]

/-- Witness for the amended C9: registry version `[1]`, store holding the
sentinel record, target `7`. -/
theorem SetVersion_rejects_unknown_target_witness :
    SetVersion [⟨1, "-", false⟩] 7 [⟨1, "-"⟩] =
      ⟨1, 0, [⟨1, "-"⟩], [], some MErr.targetNotFound⟩ := by
  have h := SetVersion_rejects_unknown_target [⟨1, "-", false⟩] 7 [⟨1, "-"⟩]
    (by decide) (by decide)
  simpa using h

/-- Claim C10: on every nonempty History Store, `Version` returns — as both
`oldVersion` and `newVersion` — the version of the most recently inserted
record (insertion-order semantics per the store contract), with no error. -/
theorem Version_returns_last_inserted (store : List PersistedRecord)
    (hs : store ≠ []) :
    VersionOp store =
      ((store.getLast hs).Version, (store.getLast hs).Version, none) :=
  VersionOp_getLast store hs

/-- Witness for C10: a store whose insertion order disagrees with version
order — record of version `2` inserted before version `1`: `Version`
returns `1` (last inserted), not the maximum `2`. -/
theorem Version_returns_last_inserted_witness :
    VersionOp [⟨2, "b"⟩, ⟨1, "a"⟩] = (1, 1, none) := by
  have h := Version_returns_last_inserted [⟨2, "b"⟩, ⟨1, "a"⟩] (by decide)
  simpa using h

end GormMigrator
